import Mathlib

/-!
# Verification of the MemoChat chunked memory manager

A shallow embedding of `memochat_plus/backend/app/memory_manager.py` (class
`MemoryManager`, v3.0 chunked storage) and of the consolidation commit step of
`memochat_plus/backend/app/main.py` (`stream_generator`), together with proofs
about the embedded operations.

Modelling conventions:
* Embedding vectors are `List ℚ`; the external sentence-transformer embedder is
  an arbitrary function `E : String → Vec` passed to every operation that
  embeds text (the Python code consumes it as a pure service).
* The FAISS `IndexFlatL2` is modelled by the list of physically stored vectors
  in append order (`vectors`), with `search` returning positions sorted by
  squared L2 distance, closest first (ties broken by position).  FAISS's `-1`
  padding for under-full result rows never occurs because the code clamps the
  requested breadth, so it is not modelled.
* `np.linalg.norm` needs a square root, which is not exactly representable in
  ℚ; the cosine-similarity routine therefore takes the square-root function
  `sq : ℚ → ℚ` as an abstract parameter.  Every property proved below holds
  for an arbitrary `sq`.
* Python dicts become insertion-ordered association lists; dict assignment is
  `dictSet` (update in place if present, append otherwise), deletion is a
  filter.  `uuid.uuid4` chunk-id generation is modelled by a `nonce` counter in
  the state (`freshChunkId`); the only property of uuid generation the code
  relies on is freshness of new ids, which appears as explicit hypotheses.
* `datetime.now()` is an explicit `now : Nat` argument.
* Writing the index/chunk tables to disk (`_save_ltm`) is modelled by copying
  the saved data into a `disk` field of the state.
-/

namespace Memochat

/-- Embedding vectors (model of `np.ndarray` rows produced by the embedder). -/
abbrev Vec := List ℚ

/-- One knowledge chunk: an entry of `self.ltm_chunks`
(`{content, category, created_at, updated_at}`). -/
structure Chunk where
  content : String
  category : String
  created_at : Nat
  updated_at : Nat
deriving Repr, DecidableEq

/-- One entry of the legacy `self.ltm_metadata` list.  Only the fields claims
talk about are modelled (`content`, `created_at`); bookkeeping fields such as
`timestamp`, `old_version`, `chunk_count` and `pending_questions` are not. -/
structure MetaEntry where
  content : String
  created_at : Nat
deriving Repr, DecidableEq

/-- One entry of the archive ring buffer `self.archive_metadata`
(`{content, created_at}`). -/
structure ArchiveEntry where
  content : String
  created_at : Nat
deriving Repr, DecidableEq

/-- One short-term-memory turn (`self.stm` entries). -/
structure Turn where
  input : String
  output : String
  model : String
  timestamp : Nat
deriving Repr, DecidableEq

/-- The durable image written by `_save_ltm` (faiss.index, metadata.json,
chunks.json, chunk_map.json). -/
structure DiskImage where
  vectors : List Vec
  metadata : List MetaEntry
  chunks : List (String × Chunk)
  chunk_map : List (Nat × String)
deriving Repr, DecidableEq

/-- The mutable state of a `MemoryManager` instance (the fields the claims
are about). -/
structure MM where
  ltm_chunks : List (String × Chunk)
  chunk_index_map : List (Nat × String)
  vectors : List Vec
  next_vector_id : Nat
  nonce : Nat
  ltm_metadata : List MetaEntry
  archive_metadata : List ArchiveEntry
  stm : List Turn
  turn_count : Nat
  consolidation_count : Nat
  disk : Option DiskImage
deriving Repr, DecidableEq

/-- Configuration attributes of the manager used by the modelled operations. -/
structure Config where
  enable_similarity_check : Bool
  similarity_threshold : ℚ
  archive_threshold : Nat
  chunk_consolidation_prompt : String
deriving Repr, DecidableEq

/-- Association-list lookup (Python `dict.get` on an insertion-ordered dict). -/
def alookup {κ β : Type} [DecidableEq κ] : List (κ × β) → κ → Option β
  | [], _ => none
  | p :: l, k => if p.1 = k then some p.2 else alookup l k

/-- Association-list assignment (Python `d[k] = v`): update in place if the
key is present, append otherwise. -/
def dictSet {κ β : Type} [DecidableEq κ] (l : List (κ × β)) (k : κ) (v : β) :
    List (κ × β) :=
  if (alookup l k).isSome then l.map (fun p => if p.1 = k then (k, v) else p)
  else l ++ [(k, v)]

/-- Model of uuid-based chunk-id generation (`f"chunk_{uuid.uuid4().hex[:8]}"`);
the `nonce` plays the role of the entropy source. -/
def freshChunkId (n : Nat) : String := "chunk_" ++ toString n

/-- Squared L2 distance between two vectors (the metric of
`faiss.IndexFlatL2`). -/
def distL2 (a b : Vec) : ℚ := ((a.zip b).map (fun p => (p.1 - p.2) ^ 2)).sum

/-- Ordering of (position, distance) pairs by distance. -/
def distOrder (a b : Nat × ℚ) : Prop := a.2 ≤ b.2

instance : DecidableRel distOrder := fun a b => inferInstanceAs (Decidable (a.2 ≤ b.2))

instance : IsTotal (Nat × ℚ) distOrder := ⟨fun a b => le_total a.2 b.2⟩

instance : IsTrans (Nat × ℚ) distOrder := ⟨fun _ _ _ h1 h2 => le_trans h1 h2⟩

/-- Model of `faiss.IndexFlatL2.search(q, n)`: the positions of the `n`
nearest stored vectors, closest first. -/
def searchIndex (vectors : List Vec) (q : Vec) (n : Nat) : List Nat :=
  ((((List.range vectors.length).map
      (fun i => (i, distL2 q (vectors.getD i [])))).insertionSort distOrder).take n).map
    Prod.fst

/-- Model of `add_chunk(content, category)`: store the chunk, embed, append the vector,
register the slot mapping.  Returns the new chunk id. -/
def add_chunk (E : String → Vec) (s : MM) (content category : String) (now : Nat) :
    MM × String :=
  let cid := freshChunkId s.nonce
  ({ s with
      ltm_chunks := dictSet s.ltm_chunks cid ⟨content, category, now, now⟩
      vectors := s.vectors ++ [E content]
      chunk_index_map := dictSet s.chunk_index_map s.next_vector_id cid
      next_vector_id := s.next_vector_id + 1
      nonce := s.nonce + 1 }, cid)

/-- Model of `update_chunk(chunk_id, new_content, category)`: `False` on unknown id;
otherwise update the chunk record, orphan every slot mapped to the id, append a
new vector and map it to the id. -/
def update_chunk (E : String → Vec) (s : MM) (chunk_id new_content : String)
    (category : Option String) (now : Nat) : MM × Bool :=
  match alookup s.ltm_chunks chunk_id with
  | none => (s, false)
  | some c =>
    let c1 : Chunk := { c with content := new_content, updated_at := now }
    -- `if category:` — only a non-None, nonempty category is applied
    let c2 : Chunk := match category with
      | some cat => if cat = "" then c1 else { c1 with category := cat }
      | none => c1
    let chunks' := dictSet s.ltm_chunks chunk_id c2
    let orphaned := s.chunk_index_map.filter (fun p => ¬ p.2 = chunk_id)
    ({ s with
        ltm_chunks := chunks'
        vectors := s.vectors ++ [E new_content]
        chunk_index_map := dictSet orphaned s.next_vector_id chunk_id
        next_vector_id := s.next_vector_id + 1 }, true)

/-- Model of `delete_chunk(chunk_id)`: `False` on unknown id; otherwise drop the chunk
and orphan its slots. -/
def delete_chunk (s : MM) (chunk_id : String) : MM × Bool :=
  match alookup s.ltm_chunks chunk_id with
  | none => (s, false)
  | some _ =>
    ({ s with
        ltm_chunks := s.ltm_chunks.filter (fun p => ¬ p.1 = chunk_id)
        chunk_index_map := s.chunk_index_map.filter (fun p => ¬ p.2 = chunk_id) }, true)

/-- The result-accumulation loop of `retrieve_chunks`: walk the returned slot
positions, skip orphaned slots and already-seen or deleted chunk ids, stop at
`top_k` accepted results. -/
def retrieveGo (s : MM) (top_k : Nat) :
    List Nat → List String → List (String × Chunk) → List (String × Chunk)
  | [], _, acc => acc
  | idx :: rest, seen, acc =>
    match alookup s.chunk_index_map idx with
    | none => retrieveGo s top_k rest seen acc
    | some cid =>
      if cid = "" then retrieveGo s top_k rest seen acc
      else if cid ∈ seen then retrieveGo s top_k rest seen acc
      else
        match alookup s.ltm_chunks cid with
        | none => retrieveGo s top_k rest seen acc
        | some c =>
          let acc' := acc ++ [(cid, c)]
          if top_k ≤ acc'.length then acc'
          else retrieveGo s top_k rest (cid :: seen) acc'

/-- Model of `retrieve_chunks(query, top_k)`: empty on an empty index, otherwise search
the index with breadth `min(top_k*2, ntotal)` and walk the results. -/
def retrieve_chunks (E : String → Vec) (s : MM) (query : String) (top_k : Nat) :
    List (String × Chunk) :=
  if s.vectors.length = 0 then []
  else
    retrieveGo s top_k
      (searchIndex s.vectors (E query) (min (top_k * 2) s.vectors.length)) [] []

/-- Model of `_compute_similarity(text1, text2)`: exact cosine similarity of the two
raw embeddings, `0` when either norm is zero.  `sq` models `np.sqrt` inside
`np.linalg.norm`. -/
def dotQ (a b : Vec) : ℚ := ((a.zip b).map (fun p => p.1 * p.2)).sum

/-- Model of `_compute_similarity` itself. -/
def compute_similarity (E : String → Vec) (sq : ℚ → ℚ) (text1 text2 : String) : ℚ :=
  let emb1 := E text1
  let emb2 := E text2
  let norm1 := sq (dotQ emb1 emb1)
  let norm2 := sq (dotQ emb2 emb2)
  if norm1 = 0 ∨ norm2 = 0 then 0 else dotQ emb1 emb2 / (norm1 * norm2)

/-- Canonical unordered pair key: `tuple(sorted([a, b]))`. -/
def pairKey (a b : String) : String × String := if a ≤ b then (a, b) else (b, a)

/-- Python `round(x, 3)` on the exact rational model: round half to even at
three decimals. -/
def roundHalfEven (q : ℚ) : ℤ :=
  let f := ⌊q⌋
  let r := q - f
  if r < 1 / 2 then f else if 1 / 2 < r then f + 1 else if f % 2 = 0 then f else f + 1

/-- Three-decimal rounding used for the reported similarity score. -/
def round3 (q : ℚ) : ℚ := (roundHalfEven (q * 1000) : ℚ) / 1000

/-- One reported conflict (`{"chunk1": {...}, "chunk2": {...}, "similarity"}`). -/
structure Conflict where
  chunk1_id : String
  chunk1_content : String
  chunk1_category : String
  chunk2_id : String
  chunk2_content : String
  chunk2_category : String
  similarity : ℚ
deriving Repr, DecidableEq

/-- Inner loop of `scan_all_chunks_for_conflicts`: walk one chunk's similar
chunks, skipping self-comparisons and already-processed unordered pairs,
flagging pairs above the threshold. -/
def scanInner (E : String → Vec) (sq : ℚ → ℚ) (thr : ℚ) (cid : String) (cdata : Chunk) :
    List (String × Chunk) → List Conflict → List (String × String) →
    List Conflict × List (String × String)
  | [], cs, ps => (cs, ps)
  | (sid, sc) :: rest, cs, ps =>
    if sid = cid then scanInner E sq thr cid cdata rest cs ps
    else
      let key := pairKey cid sid
      if key ∈ ps then scanInner E sq thr cid cdata rest cs ps
      else
        let similarity := compute_similarity E sq cdata.content sc.content
        if thr < similarity then
          scanInner E sq thr cid cdata rest
            (cs ++ [⟨cid, cdata.content, cdata.category,
                     sid, sc.content, sc.category, round3 similarity⟩])
            (ps ++ [key])
        else scanInner E sq thr cid cdata rest cs ps

/-- Outer loop of `scan_all_chunks_for_conflicts`: for every chunk, retrieve
its top-6 nearest chunks and run the inner loop. -/
def scanOuter (E : String → Vec) (sq : ℚ → ℚ) (s : MM) (thr : ℚ) :
    List (String × Chunk) → List Conflict → List (String × String) →
    List Conflict × List (String × String)
  | [], cs, ps => (cs, ps)
  | (cid, cdata) :: rest, cs, ps =>
    let similar := retrieve_chunks E s cdata.content 6
    let r := scanInner E sq thr cid cdata similar cs ps
    scanOuter E sq s thr rest r.1 r.2

/-- Model of `scan_all_chunks_for_conflicts()`: empty when similarity checking is
disabled, otherwise the deduplicated list of above-threshold pairs. -/
def scan_all_chunks_for_conflicts (E : String → Vec) (sq : ℚ → ℚ) (cfg : Config)
    (s : MM) : List Conflict :=
  if cfg.enable_similarity_check = false then []
  else (scanOuter E sq s cfg.similarity_threshold s.ltm_chunks [] []).1

/-- Model of `validate_chunk_consistency(chunk_id)`: is the chunk near-duplicate of an
existing chunk?  Returns `(is_duplicate, similar chunks with scores)`. -/
def validate_chunk_consistency (E : String → Vec) (sq : ℚ → ℚ) (cfg : Config)
    (s : MM) (chunk_id : String) : Bool × List (String × Chunk × ℚ) :=
  if cfg.enable_similarity_check = false then (false, [])
  else
    match alookup s.ltm_chunks chunk_id with
    | none => (false, [])
    | some c =>
      let similar := (retrieve_chunks E s c.content 5).filter (fun p => ¬ p.1 = chunk_id)
      let dups := (similar.map
          (fun p => (p.1, p.2, compute_similarity E sq c.content p.2.content))).filter
        (fun t => cfg.similarity_threshold < t.2.2)
      (¬ dups.isEmpty, dups)

/-- A parsed chunk operation (the dicts produced by
`parse_chunk_operations`).  `category` of an UPDATE is the optional
`op.get("category")`, always absent in parser output. -/
inductive ChunkOp where
  | add (category content : String)
  | update (chunk_id content : String) (category : Option String)
  | delete (chunk_id : String)
deriving Repr, DecidableEq

/-- Python `\s` (ASCII range): the whitespace class used by `str.strip` and
the regex patterns. -/
def pySpace (c : Char) : Bool :=
  c = ' ' || c = '\t' || c = '\n' || c = '\r' || c = '\x0b' || c = '\x0c'

/-- Model of `str.strip()` on a character list. -/
def trimChars (s : List Char) : List Char :=
  ((s.dropWhile pySpace).reverse.dropWhile pySpace).reverse

/-- Model of `str.strip()`. -/
def pyStrip (s : String) : String := ⟨trimChars s.data⟩

/-- The suffix after the last occurrence of `pat`, `none` when `pat` does not
occur (`raw.split(pat)[-1]` combined with the `pat in raw` membership test). -/
def afterLast (pat : List Char) : List Char → Option (List Char)
  | [] => none
  | c :: rest =>
    match afterLast pat rest with
    | some r => some r
    | none =>
      if pat.isPrefixOf (c :: rest) then some ((c :: rest).drop pat.length) else none

/-- Model of the think-stripping step: `raw.split("</think>")[-1].strip()` when the delimiter occurs. -/
def stripThink (s : String) : String :=
  match afterLast "</think>".data s.data with
  | some r => ⟨trimChars r⟩
  | none => s

/-- Consume one expected literal character. -/
def expectChar (c : Char) : List Char → Option (List Char)
  | x :: rest => if x = c then some rest else none
  | [] => none

/-- Case-insensitive literal match (`re.IGNORECASE`); returns the remainder. -/
def ciMatch : List Char → List Char → Option (List Char)
  | [], s => some s
  | _, [] => none
  | p :: ps, c :: cs => if p.toLower = c.toLower then ciMatch ps cs else none

/-- Whitespace run `\s+`: at least one whitespace character, consumed greedily. -/
def spaces1 : List Char → Option (List Char)
  | c :: rest => if pySpace c then some (rest.dropWhile pySpace) else none
  | [] => none

/-- Scan up to the next `"`; accumulator holds the capture so far reversed. -/
def scanQuote (acc : List Char) : List Char → Option (List Char × List Char)
  | [] => none
  | c :: rest => if c = '"' then some (acc.reverse, rest) else scanQuote (c :: acc) rest

/-- Quoted capture `([^"]+)"`: a nonempty capture of non-quote characters up to the closing
quote. -/
def takeQuoted (s : List Char) : Option (List Char × List Char) :=
  match scanQuote [] s with
  | some (cap, rest) => if cap = [] then none else some (cap, rest)
  | none => none

/-- Lazy `(.*?)` up to the first case-insensitive occurrence of `pat`
(with `re.DOTALL`, so `.` matches newlines); returns (content, remainder). -/
def splitAtCi (pat : List Char) : List Char → Option (List Char × List Char)
  | [] => none
  | c :: rest =>
    match ciMatch pat (c :: rest) with
    | some rem => some ([], rem)
    | none =>
      match splitAtCi pat rest with
      | some (pre, rem) => some (c :: pre, rem)
      | none => none

/-- Attempt to match `\[ADD\s+category="([^"]+)"\](.*?)\[/ADD\]` at the head
of the input; returns (category, content, remainder after the match). -/
def tryMatchAdd (s : List Char) : Option (String × String × List Char) :=
  (expectChar '[' s).bind fun r0 =>
  (ciMatch "add".data r0).bind fun r1 =>
  (spaces1 r1).bind fun r2 =>
  (ciMatch "category=".data r2).bind fun r3 =>
  (expectChar '"' r3).bind fun r4 =>
  (takeQuoted r4).bind fun pc =>
  (expectChar ']' pc.2).bind fun r5 =>
  (splitAtCi "[/add]".data r5).bind fun cc =>
  some (⟨pc.1⟩, ⟨cc.1⟩, cc.2)

/-- Attempt to match `\[UPDATE\s+chunk_id="([^"]+)"\](.*?)\[/UPDATE\]`. -/
def tryMatchUpdate (s : List Char) : Option (String × String × List Char) :=
  (expectChar '[' s).bind fun r0 =>
  (ciMatch "update".data r0).bind fun r1 =>
  (spaces1 r1).bind fun r2 =>
  (ciMatch "chunk_id=".data r2).bind fun r3 =>
  (expectChar '"' r3).bind fun r4 =>
  (takeQuoted r4).bind fun pc =>
  (expectChar ']' pc.2).bind fun r5 =>
  (splitAtCi "[/update]".data r5).bind fun cc =>
  some (⟨pc.1⟩, ⟨cc.1⟩, cc.2)

/-- Attempt to match `\[DELETE\s+chunk_id="([^"]+)"\]`. -/
def tryMatchDelete (s : List Char) : Option (String × List Char) :=
  (expectChar '[' s).bind fun r0 =>
  (ciMatch "delete".data r0).bind fun r1 =>
  (spaces1 r1).bind fun r2 =>
  (ciMatch "chunk_id=".data r2).bind fun r3 =>
  (expectChar '"' r3).bind fun r4 =>
  (takeQuoted r4).bind fun pc =>
  (expectChar ']' pc.2).bind fun r5 =>
  some (⟨pc.1⟩, r5)

/-- Model of `re.finditer` for the ADD pattern: scan left to right, emit non-overlapping
matches.  The fuel is the input length; a match always consumes at least one
character, so the fuel never runs out on the calls below. -/
def scanAdds : Nat → List Char → List (String × String)
  | 0, _ => []
  | _, [] => []
  | fuel + 1, c :: rest =>
    match tryMatchAdd (c :: rest) with
    | some (cat, content, rem) => (cat, content) :: scanAdds fuel rem
    | none => scanAdds fuel rest

/-- Model of `re.finditer` for the UPDATE pattern. -/
def scanUpdates : Nat → List Char → List (String × String)
  | 0, _ => []
  | _, [] => []
  | fuel + 1, c :: rest =>
    match tryMatchUpdate (c :: rest) with
    | some (cid, content, rem) => (cid, content) :: scanUpdates fuel rem
    | none => scanUpdates fuel rest

/-- Model of `re.finditer` for the DELETE pattern. -/
def scanDeletes : Nat → List Char → List String
  | 0, _ => []
  | _, [] => []
  | fuel + 1, c :: rest =>
    match tryMatchDelete (c :: rest) with
    | some (cid, rem) => cid :: scanDeletes fuel rem
    | none => scanDeletes fuel rest

/-- Model of `parse_chunk_operations(raw_output)`: strip a trailing-thinking prefix,
then collect all ADD, then all UPDATE, then all DELETE matches, stripping the
captured groups and dropping operations with empty content / chunk id. -/
def parse_chunk_operations (raw_output : String) : List ChunkOp :=
  let raw := stripThink raw_output
  let cs := raw.data
  let adds := (scanAdds cs.length cs).filterMap (fun p =>
    let content := pyStrip p.2
    if content = "" then none else some (ChunkOp.add (pyStrip p.1) content))
  let updates := (scanUpdates cs.length cs).filterMap (fun p =>
    let cid := pyStrip p.1
    let content := pyStrip p.2
    if content = "" then none
    else if cid = "" then none
    else some (ChunkOp.update cid content none))
  let deletes := (scanDeletes cs.length cs).filterMap (fun c =>
    let cid := pyStrip c
    if cid = "" then none else some (ChunkOp.delete cid))
  adds ++ updates ++ deletes

/-- Model of `_save_ltm()`: write the index and all chunk tables to disk. -/
def save_ltm (s : MM) : MM :=
  { s with disk := some ⟨s.vectors, s.ltm_metadata, s.ltm_chunks, s.chunk_index_map⟩ }

/-- Model of `_create_new_index()`: fresh FAISS index, all chunk state reset. -/
def create_new_index (s : MM) : MM :=
  { s with
      vectors := []
      ltm_metadata := []
      ltm_chunks := []
      chunk_index_map := []
      next_vector_id := 0 }

/-- Operation counters returned by `apply_chunk_operations`. -/
structure Counts where
  added : Nat
  updated : Nat
  deleted : Nat
  flagged : Nat
deriving Repr, DecidableEq

/-- The loop body of `apply_chunk_operations`: apply each operation in order,
counting successes; unknown UPDATE/DELETE ids are skipped. -/
def applyOpsGo (E : String → Vec) (sq : ℚ → ℚ) (cfg : Config) (now : Nat) :
    MM → Counts → List ChunkOp → MM × Counts
  | s, cnt, [] => (s, cnt)
  | s, cnt, op :: rest =>
    match op with
    | .add category content =>
      if content = "" then applyOpsGo E sq cfg now s cnt rest
      else
        let r := add_chunk E s content category now
        let cnt1 := { cnt with added := cnt.added + 1 }
        let cnt2 :=
          if cfg.enable_similarity_check ∧
              (validate_chunk_consistency E sq cfg r.1 r.2).1 then
            { cnt1 with flagged := cnt1.flagged + 1 }
          else cnt1
        applyOpsGo E sq cfg now r.1 cnt2 rest
    | .update cid content category =>
      let r := update_chunk E s cid content category now
      applyOpsGo E sq cfg now r.1
        (if r.2 then { cnt with updated := cnt.updated + 1 } else cnt) rest
    | .delete cid =>
      let r := delete_chunk s cid
      applyOpsGo E sq cfg now r.1
        (if r.2 then { cnt with deleted := cnt.deleted + 1 } else cnt) rest

/-- Model of `apply_chunk_operations(operations)`: run the batch, then save if anything
changed. -/
def apply_chunk_operations (E : String → Vec) (sq : ℚ → ℚ) (cfg : Config)
    (s : MM) (ops : List ChunkOp) (now : Nat) : MM × Counts :=
  let r := applyOpsGo E sq cfg now s ⟨0, 0, 0, 0⟩ ops
  if 0 < r.2.added + r.2.updated + r.2.deleted then (save_ltm r.1, r.2) else r

/-- Model of `str.upper()` (character-wise uppercasing). -/
def pyUpper (s : String) : String := ⟨s.data.map Char.toUpper⟩

/-- Model of `rebuild_legacy_metadata()`: rebuild the single aggregate legacy entry
from the chunk table (no-op when there are no chunks). -/
def rebuild_legacy_metadata (s : MM) (now : Nat) : MM :=
  if s.ltm_chunks = [] then s
  else
    let all_content := String.intercalate "\n\n"
      (s.ltm_chunks.map (fun p => "[" ++ pyUpper p.2.category ++ "]\n" ++ p.2.content))
    { s with ltm_metadata := [⟨all_content, now⟩] }

/-- Model of `apply_chunk_consolidation(raw_output, new_summary)`: parse the edit
script; fall back to one ADD of the whole summary when nothing parses; rebuild
the legacy aggregate and save.  Returns the combined KB text. -/
def apply_chunk_consolidation (E : String → Vec) (sq : ℚ → ℚ) (cfg : Config)
    (s : MM) (raw_output new_summary : String) (now : Nat) : MM × String :=
  let ops := parse_chunk_operations raw_output
  let s1 :=
    if ops = [] then (add_chunk E s new_summary "general" now).1
    else (apply_chunk_operations E sq cfg s ops now).1
  let s2 := save_ltm (rebuild_legacy_metadata s1 now)
  (s2, match s2.ltm_metadata with
       | e :: _ => e.content
       | [] => new_summary)

/-- Model of `apply_consolidation_result(raw_output, mode, new_summary)`. -/
def apply_consolidation_result (E : String → Vec) (sq : ℚ → ℚ) (cfg : Config)
    (s : MM) (raw_output mode new_summary : String) (now : Nat) : MM × String :=
  let raw := stripThink raw_output
  if mode = "chunk" then apply_chunk_consolidation E sq cfg s raw new_summary now
  else if mode = "rewrite" then (s, raw)
  else (s, match s.ltm_metadata with
           | e :: _ => e.content
           | [] => "")

/-- Model of `replace_ltm_with_consolidated(kb)`: wipe the metadata and the whole chunk
state, store `kb` as the single legacy entry with its embedding as the single
index vector, save, and increment the consolidation counter.  (The
`pending_questions` argument only feeds an unmodelled bookkeeping field.) -/
def replace_ltm_with_consolidated (E : String → Vec) (s : MM) (kb : String)
    (now : Nat) : MM :=
  let s1 := create_new_index s
  let s2 := { s1 with
                vectors := s1.vectors ++ [E kb]
                ltm_metadata := s1.ltm_metadata ++ [⟨kb, now⟩] }
  let s3 := save_ltm s2
  { s3 with consolidation_count := s3.consolidation_count + 1 }

/-- Model of `perform_deep_archive(engine, model)`: distill the aggregate knowledge
text and append it to the archive ring buffer, evicting the oldest entry once
the length exceeds 10.  `distill` models the deep-archive prompt plus the
generative call (`engine.generate` applied to the formatted prompt). -/
def perform_deep_archive (distill : String → String) (s : MM) (now : Nat) : MM :=
  match s.ltm_metadata with
  | [] => s
  | e :: _ =>
    let distilled := stripThink (distill e.content)
    let arch := s.archive_metadata ++ [⟨distilled, now⟩]
    { s with archive_metadata := if 10 < arch.length then arch.drop 1 else arch }

/-- Model of `restore_from_archive(index)`: replace the whole store with one archive
entry's distilled text when the index is in range. -/
def restore_from_archive (E : String → Vec) (s : MM) (index : Nat) (now : Nat) :
    MM × Bool :=
  match s.archive_metadata.get? index with
  | some entry => (replace_ltm_with_consolidated E s entry.content now, true)
  | none => (s, false)

/-- The COMMIT step of `stream_generator` (main.py): apply the consolidation
result; when the resulting text passes the plausibility minimum (> 10 chars
stripped), perform a legacy full replace unless in chunk mode, clear the turn
buffer and reset `turn_count`; otherwise abort the clear.  The mode is
`"chunk"` exactly when a chunk-consolidation prompt is configured
(`get_consolidation_prompt`).  Returns the state and a success flag. -/
def commitCore (E : String → Vec) (sq : ℚ → ℚ) (cfg : Config) (s : MM)
    (delta_output sum_text : String) (now : Nat) : MM × Bool :=
  let mode := if cfg.chunk_consolidation_prompt = "" then "rewrite" else "chunk"
  let r := apply_consolidation_result E sq cfg s delta_output mode sum_text now
  if 10 < (pyStrip r.2).length then
    let s2 := if mode = "chunk" then r.1
              else replace_ltm_with_consolidated E r.1 r.2 now
    ({ s2 with stm := [], turn_count := 0 }, true)
  else (r.1, false)

/-- The deep-archive step following the commit in `stream_generator`:
`if mm.consolidation_count >= mm.archive_threshold: perform_deep_archive;
consolidation_count = 0`. -/
def archiveStep (cfg : Config) (distill : String → String) (s : MM) (now : Nat) : MM :=
  if cfg.archive_threshold ≤ s.consolidation_count then
    { perform_deep_archive distill s now with consolidation_count := 0 }
  else s

/-- One whole consolidation commit cycle of `stream_generator` (lines
104–128 of main.py): the COMMIT step followed by the deep-archive check. -/
def consolidationCommit (E : String → Vec) (sq : ℚ → ℚ) (cfg : Config)
    (distill : String → String) (s : MM) (delta_output sum_text : String)
    (now : Nat) : MM × Bool :=
  let r := commitCore E sq cfg s delta_output sum_text now
  (archiveStep cfg distill r.1 now, r.2)

/-! ## Association-list lemmas -/

section AList

variable {κ β : Type} [DecidableEq κ]

@[simp] theorem alookup_nil (k : κ) : alookup ([] : List (κ × β)) k = none := rfl

theorem alookup_cons (p : κ × β) (l : List (κ × β)) (k : κ) :
    alookup (p :: l) k = if p.1 = k then some p.2 else alookup l k := rfl

theorem alookup_eq_none {l : List (κ × β)} {k : κ} :
    alookup l k = none ↔ k ∉ l.map Prod.fst := by
  induction l with
  | nil => simp
  | cons p t ih =>
    by_cases h : p.1 = k
    · simp only [alookup_cons, if_pos h, List.map_cons, List.mem_cons]
      constructor
      · intro hc
        exact absurd hc (by simp)
      · intro hc
        exact absurd (Or.inl h.symm) hc
    · simp only [alookup_cons, if_neg h, List.map_cons, List.mem_cons, ih]
      constructor
      · intro hc hor
        rcases hor with he | hm
        · exact h he.symm
        · exact hc hm
      · intro hc hm
        exact hc (Or.inr hm)

theorem alookup_isSome {l : List (κ × β)} {k : κ} :
    (alookup l k).isSome = true ↔ k ∈ l.map Prod.fst := by
  rw [← Decidable.not_iff_not, ← alookup_eq_none]
  cases alookup l k <;> simp

theorem alookup_mem {l : List (κ × β)} {k : κ} {v : β}
    (h : alookup l k = some v) : (k, v) ∈ l := by
  induction l with
  | nil => simp at h
  | cons p t ih =>
    rw [alookup_cons] at h
    split at h
    · cases h
      rename_i he
      have : p = (k, p.2) := by
        rw [← he]
      exact this ▸ List.mem_cons_self p t
    · exact List.mem_cons_of_mem _ (ih h)

theorem alookup_append (l₁ l₂ : List (κ × β)) (k : κ) :
    alookup (l₁ ++ l₂) k =
      match alookup l₁ k with
      | some v => some v
      | none => alookup l₂ k := by
  induction l₁ with
  | nil => simp
  | cons p t ih =>
    by_cases h : p.1 = k <;> simp [alookup_cons, h, ih]

theorem dictSet_of_not_mem {l : List (κ × β)} {k : κ} (v : β)
    (h : k ∉ l.map Prod.fst) : dictSet l k v = l ++ [(k, v)] := by
  have : alookup l k = none := alookup_eq_none.mpr h
  simp [dictSet, this]

theorem alookup_dictSet_append {l : List (κ × β)} {k : κ} (v : β)
    (h : k ∉ l.map Prod.fst) : alookup (dictSet l k v) k = some v := by
  rw [dictSet_of_not_mem v h, alookup_append, alookup_eq_none.mpr h]
  simp [alookup_cons]

theorem alookup_map_setFn {l : List (κ × β)} {k : κ} {c : β} (v : β)
    (h : alookup l k = some c) :
    alookup (l.map fun p => if p.1 = k then (k, v) else p) k = some v := by
  induction l with
  | nil => simp at h
  | cons p t ih =>
    rw [alookup_cons] at h
    by_cases hp : p.1 = k
    · simp [hp, alookup_cons]
    · rw [if_neg hp] at h
      simp only [List.map_cons, if_neg hp, alookup_cons, if_neg hp]
      exact ih h

theorem dictSet_of_mem {l : List (κ × β)} {k : κ} {c : β} (v : β)
    (h : alookup l k = some c) :
    dictSet l k v = l.map fun p => if p.1 = k then (k, v) else p := by
  simp [dictSet, h]

end AList

/-! ## The chunk↔slot indirection invariant (claim C10) and CRUD facts -/

/-- States reachable from a freshly created index by `add_chunk`,
`update_chunk` and `delete_chunk`. -/
inductive Reachable (E : String → Vec) : MM → Prop where
  | init (s : MM)
      (h : s.ltm_chunks = [] ∧ s.chunk_index_map = [] ∧ s.vectors = [] ∧
           s.next_vector_id = 0) : Reachable E s
  | add (s : MM) (content category : String) (now : Nat) (h : Reachable E s) :
      Reachable E (add_chunk E s content category now).1
  | update (s : MM) (cid content : String) (category : Option String) (now : Nat)
      (h : Reachable E s) : Reachable E (update_chunk E s cid content category now).1
  | delete (s : MM) (cid : String) (h : Reachable E s) :
      Reachable E (delete_chunk s cid).1

/-- The physical-slot invariant: the next-position counter equals the number
of stored vectors, and every live mapping points below it. -/
def IndexInv (s : MM) : Prop :=
  s.next_vector_id = s.vectors.length ∧
  ∀ p ∈ s.chunk_index_map, p.1 < s.next_vector_id

theorem indexInv_map_lookup {s : MM} (h : IndexInv s) :
    alookup s.chunk_index_map s.next_vector_id = none := by
  rw [alookup_eq_none]
  intro hmem
  obtain ⟨p, hp, hfst⟩ := List.mem_map.mp hmem
  exact absurd (hfst ▸ h.2 p hp) (lt_irrefl _)

theorem indexInv_add (E : String → Vec) (s : MM) (content category : String)
    (now : Nat) (h : IndexInv s) : IndexInv (add_chunk E s content category now).1 := by
  obtain ⟨h1, h2⟩ := h
  constructor
  · simp [add_chunk, h1]
  · intro p hp
    simp only [add_chunk] at hp
    rw [dictSet_of_not_mem _ (fun hm => by
      obtain ⟨q, hq, hfst⟩ := List.mem_map.mp hm
      exact absurd (hfst ▸ h2 q hq) (lt_irrefl _))] at hp
    rcases List.mem_append.mp hp with hin | hin
    · exact Nat.lt_succ_of_lt (h2 p hin)
    · simp only [List.mem_singleton] at hin
      subst hin
      exact Nat.lt_succ_self _

theorem indexInv_update (E : String → Vec) (s : MM) (cid content : String)
    (category : Option String) (now : Nat) (h : IndexInv s) :
    IndexInv (update_chunk E s cid content category now).1 := by
  obtain ⟨h1, h2⟩ := h
  unfold update_chunk
  cases hl : alookup s.ltm_chunks cid with
  | none => exact ⟨h1, h2⟩
  | some c =>
    have hsub : ∀ p ∈ s.chunk_index_map.filter (fun p => ¬ p.2 = cid),
        p ∈ s.chunk_index_map := fun p hp => (List.mem_filter.mp hp).1
    constructor
    · simp [h1]
    · intro p hp
      simp only at hp
      rw [dictSet_of_not_mem _ (fun hm => by
        obtain ⟨q, hq, hfst⟩ := List.mem_map.mp hm
        exact absurd (hfst ▸ h2 q (hsub q hq)) (lt_irrefl _))] at hp
      rcases List.mem_append.mp hp with hin | hin
      · exact Nat.lt_succ_of_lt (h2 p (hsub p hin))
      · simp only [List.mem_singleton] at hin
        subst hin
        exact Nat.lt_succ_self _

theorem indexInv_delete (s : MM) (cid : String) (h : IndexInv s) :
    IndexInv (delete_chunk s cid).1 := by
  obtain ⟨h1, h2⟩ := h
  unfold delete_chunk
  cases hl : alookup s.ltm_chunks cid with
  | none => exact ⟨h1, h2⟩
  | some c =>
    exact ⟨h1, fun p hp => h2 p (List.mem_filter.mp hp).1⟩

/-- Claim C10:  Starting from a freshly created index, after every sequence of
`add_chunk`, `update_chunk` and `delete_chunk` calls, `next_vector_id` equals
the total number of physical vectors in the index, and every key of the
chunk↔slot map is a valid physical position strictly below that count. -/
theorem reachable_index_invariant (E : String → Vec) (s : MM)
    (h : Reachable E s) :
    s.next_vector_id = s.vectors.length ∧
    ∀ p ∈ s.chunk_index_map, p.1 < s.vectors.length := by
  have hinv : IndexInv s := by
    induction h with
    | init s h => exact ⟨by rw [h.2.2.2, h.2.2.1]; rfl, by simp [h.2.1]⟩
    | add s content category now h ih => exact indexInv_add E s content category now ih
    | update s cid content category now h ih =>
      exact indexInv_update E s cid content category now ih
    | delete s cid h ih => exact indexInv_delete s cid ih
  exact ⟨hinv.1, fun p hp => hinv.1 ▸ hinv.2 p hp⟩

/-- A fresh manager state (all tables empty). -/
def emptyMM : MM := ⟨[], [], [], 0, 0, [], [], [], 0, 0, none⟩

/-- A concrete embedder for witnesses. -/
def wE : String → Vec := fun _ => [1]

/-- A concrete reachable state: one add, one update, one delete. -/
def wState10 : MM :=
  (delete_chunk (update_chunk wE (add_chunk wE emptyMM "a" "general" 3).1
    "chunk_0" "b" none 4).1 "chunk_0").1

/-- Witness for C10: the invariant holds at the concrete reachable state
`wState10`. -/
theorem reachable_index_invariant_witness :
    wState10.next_vector_id = wState10.vectors.length :=
  (reachable_index_invariant wE wState10
    (.delete _ _ (.update _ _ _ _ _ (.add _ _ _ _ (.init _ (by simp [emptyMM])))))).1

theorem filter_partition_length {α : Type} (P : α → Prop) [DecidablePred P]
    (l : List α) :
    (l.filter (fun a => ¬ P a)).length + (l.filter (fun a => P a)).length
      = l.length := by
  have h := List.length_eq_length_filter_add (l := l) (fun a => decide (P a))
  simp only [decide_not] at h ⊢
  omega

@[simp] theorem save_ltm_chunks (s : MM) : (save_ltm s).ltm_chunks = s.ltm_chunks := rfl

@[simp] theorem rebuild_legacy_chunks (s : MM) (now : Nat) :
    (rebuild_legacy_metadata s now).ltm_chunks = s.ltm_chunks := by
  unfold rebuild_legacy_metadata
  split <;> rfl

/-- Claim C3:  For a `chunk_id` present in the chunk table (in a state
satisfying the reachable-state index invariant: slots below
`next_vector_id`, exactly one live slot for the chunk),
`update_chunk(chunk_id, new_content, category)` returns `True`, appends
exactly one physical vector, leaves exactly the one new slot mapped to
`chunk_id`, keeps the live-map size unchanged, and rewrites the chunk's
content, `updated_at` and (when a nonempty category is supplied) category. -/
theorem update_chunk_ok (E : String → Vec) (s : MM) (chunk_id new_content : String)
    (category : Option String) (now : Nat) (c : Chunk)
    (hc : alookup s.ltm_chunks chunk_id = some c)
    (hkeys : ∀ p ∈ s.chunk_index_map, p.1 < s.next_vector_id)
    (hone : (s.chunk_index_map.filter (fun p => p.2 = chunk_id)).length = 1) :
    (update_chunk E s chunk_id new_content category now).2 = true
  ∧ (update_chunk E s chunk_id new_content category now).1.vectors.length
      = s.vectors.length + 1
  ∧ (update_chunk E s chunk_id new_content category now).1.chunk_index_map.filter
      (fun p => p.2 = chunk_id) = [(s.next_vector_id, chunk_id)]
  ∧ (update_chunk E s chunk_id new_content category now).1.chunk_index_map.length
      = s.chunk_index_map.length
  ∧ ∃ c', alookup (update_chunk E s chunk_id new_content category now).1.ltm_chunks
        chunk_id = some c'
      ∧ c'.content = new_content ∧ c'.updated_at = now ∧ c'.created_at = c.created_at
      ∧ (category = none → c'.category = c.category)
      ∧ ∀ cat, category = some cat → ¬ cat = "" → c'.category = cat := by
  have horph_sub : ∀ p ∈ s.chunk_index_map.filter (fun p => ¬ p.2 = chunk_id),
      p ∈ s.chunk_index_map := fun p hp => (List.mem_filter.mp hp).1
  have hnv : s.next_vector_id ∉
      (s.chunk_index_map.filter (fun p => ¬ p.2 = chunk_id)).map Prod.fst := by
    intro hm
    obtain ⟨q, hq, hfst⟩ := List.mem_map.mp hm
    exact absurd (hfst ▸ hkeys q (horph_sub q hq)) (lt_irrefl _)
  have hset : dictSet (s.chunk_index_map.filter (fun p => ¬ p.2 = chunk_id))
      s.next_vector_id chunk_id
      = s.chunk_index_map.filter (fun p => ¬ p.2 = chunk_id)
        ++ [(s.next_vector_id, chunk_id)] := dictSet_of_not_mem _ hnv
  refine ⟨?_, ?_, ?_, ?_, ?_⟩
  · simp [update_chunk, hc]
  · simp [update_chunk, hc]
  · simp only [update_chunk, hc, hset, List.filter_append]
    rw [List.filter_filter]
    have h1 : (s.chunk_index_map.filter
        (fun p => decide (p.2 = chunk_id) && decide (¬ p.2 = chunk_id))) = [] := by
      apply List.filter_eq_nil_iff.mpr
      intro p _
      by_cases h : p.2 = chunk_id <;> simp [h]
    rw [h1]
    simp
  · simp only [update_chunk, hc, hset, List.length_append, List.length_singleton]
    have := filter_partition_length (fun p : Nat × String => p.2 = chunk_id)
      s.chunk_index_map
    omega
  · simp only [update_chunk, hc]
    rw [dictSet_of_mem _ hc]
    cases category with
    | none =>
      exact ⟨_, alookup_map_setFn _ hc, rfl, rfl, rfl, fun _ => rfl,
        fun cat hcat => Option.noConfusion hcat⟩
    | some cat =>
      by_cases hce : cat = ""
      · simp only [if_pos hce]
        exact ⟨_, alookup_map_setFn _ hc, rfl, rfl, rfl,
          fun h => Option.noConfusion h,
          fun cat' hcat' hne =>
            absurd ((Option.some.inj hcat').symm.trans hce) hne⟩
      · simp only [if_neg hce]
        exact ⟨_, alookup_map_setFn _ hc, rfl, rfl, rfl,
          fun h => Option.noConfusion h,
          fun cat' hcat' _ => Option.some.inj hcat'⟩

/-- A concrete one-chunk state for witnesses. -/
def wState3 : MM := (add_chunk wE emptyMM "a" "general" 3).1

/-- Witness for C3 at the concrete state `wState3`. -/
theorem update_chunk_ok_witness :
    (update_chunk wE wState3 "chunk_0" "b" none 4).2 = true :=
  (update_chunk_ok wE wState3 "chunk_0" "b" none 4 ⟨"a", "general", 3, 3⟩
    (by decide) (by decide) (by decide)).1

/-- Claim C8:  For an unknown `chunk_id`, `update_chunk` and `delete_chunk`
return `False` and leave the whole state unchanged, and a batch apply skips
the corresponding UPDATE/DELETE operations without failing and without
counting them. -/
theorem unknown_id_noop (E : String → Vec) (sq : ℚ → ℚ) (cfg : Config) (s : MM)
    (cid content : String) (catp : Option String) (now : Nat) (rest : List ChunkOp)
    (h : alookup s.ltm_chunks cid = none) :
    update_chunk E s cid content catp now = (s, false)
  ∧ delete_chunk s cid = (s, false)
  ∧ apply_chunk_operations E sq cfg s (ChunkOp.update cid content catp :: rest) now
      = apply_chunk_operations E sq cfg s rest now
  ∧ apply_chunk_operations E sq cfg s (ChunkOp.delete cid :: rest) now
      = apply_chunk_operations E sq cfg s rest now := by
  refine ⟨by simp [update_chunk, h], by simp [delete_chunk, h], ?_, ?_⟩
  · simp [apply_chunk_operations, applyOpsGo, update_chunk, h]
  · simp [apply_chunk_operations, applyOpsGo, delete_chunk, h]

/-- Witness for C8 at a concrete state with an unknown id. -/
theorem unknown_id_noop_witness :
    update_chunk wE wState3 "nope" "x" none 9 = (wState3, false) :=
  (unknown_id_noop wE id ⟨true, 85 / 100, 5, ""⟩ wState3 "nope" "x" none 9 []
    (by decide)).1

/-- Claim C9:  When the edit script parses to no operations at all,
`apply_chunk_consolidation` adds the entire new summary as exactly one new
chunk with category `"general"`, so the chunk count strictly increases.  The
freshness hypothesis models uuid non-collision. -/
theorem consolidation_fallback (E : String → Vec) (sq : ℚ → ℚ) (cfg : Config)
    (s : MM) (raw summary : String) (now : Nat)
    (hparse : parse_chunk_operations raw = [])
    (hfresh : freshChunkId s.nonce ∉ s.ltm_chunks.map Prod.fst) :
    (apply_chunk_consolidation E sq cfg s raw summary now).1.ltm_chunks.length
      = s.ltm_chunks.length + 1
  ∧ alookup (apply_chunk_consolidation E sq cfg s raw summary now).1.ltm_chunks
      (freshChunkId s.nonce) = some ⟨summary, "general", now, now⟩ := by
  have hchunks : (apply_chunk_consolidation E sq cfg s raw summary now).1.ltm_chunks
      = s.ltm_chunks ++ [(freshChunkId s.nonce, ⟨summary, "general", now, now⟩)] := by
    simp only [apply_chunk_consolidation, hparse, if_pos rfl, save_ltm_chunks,
      rebuild_legacy_chunks, add_chunk]
    exact dictSet_of_not_mem _ hfresh
  constructor
  · rw [hchunks]
    simp
  · rw [hchunks, alookup_append, alookup_eq_none.mpr hfresh]
    simp [alookup_cons]

/-- Witness for C9: unparseable output over the empty store adds the summary
as one chunk. -/
theorem consolidation_fallback_witness :
    (apply_chunk_consolidation wE id ⟨true, 85 / 100, 5, "p"⟩ emptyMM "garbage"
      "the summary" 7).1.ltm_chunks.length = emptyMM.ltm_chunks.length + 1 :=
  (consolidation_fallback wE id ⟨true, 85 / 100, 5, "p"⟩ emptyMM "garbage"
    "the summary" 7 (by decide) (by decide)).1

/-! ## Retrieval (claim C1) -/

/-- Statement abbreviation: the chunk id a slot resolves to (`""` when the
slot is orphaned). -/
def slotChunkId (s : MM) (i : Nat) : String := (alookup s.chunk_index_map i).getD ""

/-- Statement abbreviation: the chunk record a slot resolves to. -/
def slotChunk (s : MM) (i : Nat) : Chunk :=
  (alookup s.ltm_chunks (slotChunkId s i)).getD ⟨"", "", 0, 0⟩

theorem searchIndex_length (v : List Vec) (q : Vec) (n : Nat) :
    (searchIndex v q n).length = min n v.length := by
  unfold searchIndex
  rw [List.length_map, List.length_take,
    (List.perm_insertionSort distOrder _).length_eq, List.length_map,
    List.length_range]

theorem searchIndex_sorted (v : List Vec) (q : Vec) (n : Nat) :
    (searchIndex v q n).Pairwise
      (fun i j => distL2 q (v.getD i []) ≤ distL2 q (v.getD j [])) := by
  have hmem : ∀ p ∈ ((List.range v.length).map
      (fun i => (i, distL2 q (v.getD i [])))).insertionSort distOrder,
      p.2 = distL2 q (v.getD p.1 []) := by
    intro p hp
    have hp' := (List.perm_insertionSort distOrder _).mem_iff.mp hp
    obtain ⟨i, _, rfl⟩ := List.mem_map.mp hp'
    rfl
  have hs : (((List.range v.length).map
      (fun i => (i, distL2 q (v.getD i [])))).insertionSort distOrder).Pairwise
      distOrder := List.sorted_insertionSort distOrder _
  have htake := hs.sublist (List.take_sublist n _)
  unfold searchIndex
  rw [List.pairwise_map]
  refine htake.imp_of_mem ?_
  intro a b ha hb hab
  have ha' := (List.take_sublist n _).subset ha
  have hb' := (List.take_sublist n _).subset hb
  have h1 := hmem a ha'
  have h2 := hmem b hb'
  unfold distOrder at hab
  rw [← h1, ← h2]
  exact hab

theorem retrieveGo_spec (s : MM) (k : Nat) :
    ∀ (idxs : List Nat) (seen : List String) (acc : List (String × Chunk)),
    ∃ slots : List Nat,
      slots.Sublist idxs
    ∧ retrieveGo s k idxs seen acc
        = acc ++ slots.map (fun i => (slotChunkId s i, slotChunk s i))
    ∧ (∀ i ∈ slots, ∃ cid c, alookup s.chunk_index_map i = some cid ∧ ¬ cid = ""
        ∧ cid ∉ seen ∧ alookup s.ltm_chunks cid = some c)
    ∧ (slots.map (slotChunkId s)).Nodup
    ∧ (acc.length < k → acc.length + slots.length ≤ k) := by
  intro idxs
  induction idxs with
  | nil =>
    intro seen acc
    exact ⟨[], List.Sublist.refl _, by simp [retrieveGo], by simp, by simp,
      fun h => by simp; omega⟩
  | cons idx rest ih =>
    intro seen acc
    cases hmap : alookup s.chunk_index_map idx with
    | none =>
      obtain ⟨slots, h1, h2, h3, h4, h5⟩ := ih seen acc
      exact ⟨slots, h1.cons idx, by rw [← h2]; simp [retrieveGo, hmap], h3, h4, h5⟩
    | some cid =>
      by_cases hempty : cid = ""
      · obtain ⟨slots, h1, h2, h3, h4, h5⟩ := ih seen acc
        exact ⟨slots, h1.cons idx,
          by rw [← h2]; simp [retrieveGo, hmap, hempty], h3, h4, h5⟩
      · by_cases hseen : cid ∈ seen
        · obtain ⟨slots, h1, h2, h3, h4, h5⟩ := ih seen acc
          exact ⟨slots, h1.cons idx,
            by rw [← h2]; simp [retrieveGo, hmap, hempty, hseen], h3, h4, h5⟩
        · cases hch : alookup s.ltm_chunks cid with
          | none =>
            obtain ⟨slots, h1, h2, h3, h4, h5⟩ := ih seen acc
            exact ⟨slots, h1.cons idx,
              by rw [← h2]; simp [retrieveGo, hmap, hempty, hseen, hch], h3, h4, h5⟩
          | some c =>
            have hres : (slotChunkId s idx, slotChunk s idx) = (cid, c) := by
              simp [slotChunkId, slotChunk, hmap, hch]
            by_cases hbreak : k ≤ (acc ++ [(cid, c)]).length
            · refine ⟨[idx], (List.Sublist.refl _).cons₂ idx |>.trans
                ((List.nil_sublist rest).cons₂ idx), ?_, ?_, ?_, ?_⟩
              · rw [List.map_cons, List.map_nil, hres]
                simp only [retrieveGo, hmap, hempty, hseen, hch]
                simp only [hbreak, if_true, if_neg hempty, if_neg hseen]
                simp [hbreak]
              · intro i hi
                rw [List.mem_singleton] at hi
                subst hi
                exact ⟨cid, c, hmap, hempty, hseen, hch⟩
              · simp
              · intro hlt
                simp only [List.length_append, List.length_singleton] at hbreak ⊢
                omega
            · obtain ⟨slots, h1, h2, h3, h4, h5⟩ := ih (cid :: seen) (acc ++ [(cid, c)])
              refine ⟨idx :: slots, h1.cons₂ idx, ?_, ?_, ?_, ?_⟩
              · rw [List.map_cons, hres]
                simp only [retrieveGo, hmap, hempty, hseen, hch]
                simp only [hbreak, if_neg hseen, if_neg hempty, if_false]
                rw [h2, List.append_assoc]
                rfl
              · intro i hi
                rcases List.mem_cons.mp hi with rfl | hi'
                · exact ⟨cid, c, hmap, hempty, hseen, hch⟩
                · obtain ⟨cid', c', hm', he', hs', hc'⟩ := h3 i hi'
                  exact ⟨cid', c', hm', he', fun hmem => hs' (List.mem_cons_of_mem _ hmem), hc'⟩
              · rw [List.map_cons]
                refine List.Nodup.cons ?_ h4
                intro hmem
                obtain ⟨i, hi, heq⟩ := List.mem_map.mp hmem
                obtain ⟨cid', c', hm', he', hs', hc'⟩ := h3 i hi
                have : slotChunkId s i = cid' := by simp [slotChunkId, hm']
                rw [this] at heq
                have : slotChunkId s idx = cid := by simp [slotChunkId, hmap]
                rw [this] at heq
                exact hs' (heq ▸ List.mem_cons_self cid seen)
              · intro hlt
                have hlt' : (acc ++ [(cid, c)]).length < k := not_le.mp hbreak
                have h6 := h5 hlt'
                simp only [List.length_append, List.length_singleton] at h6
                simp only [List.length_cons]
                omega

/-- Claim C1:  For every store state (in particular every state reachable by
add/update/delete sequences), every query and every `k`: `retrieve_chunks`
returns at most `k` chunks with no duplicate chunk ids, every returned chunk
is live in the chunk table (never deleted) and has a live slot in the
chunk↔slot map (never orphaned), an empty index yields the empty result, the
accepted results follow the index's closest-first distance ordering (they are
resolved from a subsequence of the search output, which is sorted by
distance), and the search breadth is clamped to `min(2k, ntotal)` available
slots. -/
theorem retrieve_chunks_ok (E : String → Vec) (s : MM) (q : String) (k : Nat) :
    (retrieve_chunks E s q k).length ≤ k
  ∧ ((retrieve_chunks E s q k).map Prod.fst).Nodup
  ∧ (∀ p ∈ retrieve_chunks E s q k, alookup s.ltm_chunks p.1 = some p.2)
  ∧ (∀ p ∈ retrieve_chunks E s q k, ∃ slot, alookup s.chunk_index_map slot = some p.1)
  ∧ (s.vectors = [] → retrieve_chunks E s q k = [])
  ∧ (∃ slots : List Nat,
       slots.Sublist (searchIndex s.vectors (E q) (min (k * 2) s.vectors.length))
     ∧ retrieve_chunks E s q k = slots.map (fun i => (slotChunkId s i, slotChunk s i))
     ∧ slots.Pairwise (fun i j => distL2 (E q) (s.vectors.getD i [])
         ≤ distL2 (E q) (s.vectors.getD j [])))
  ∧ (searchIndex s.vectors (E q) (min (k * 2) s.vectors.length)).length
      = min (k * 2) s.vectors.length := by
  have hempty : s.vectors = [] → retrieve_chunks E s q k = [] := by
    intro hv
    simp [retrieve_chunks, hv]
  have hclamp : (searchIndex s.vectors (E q) (min (k * 2) s.vectors.length)).length
      = min (k * 2) s.vectors.length := by
    rw [searchIndex_length]
    exact min_eq_left (min_le_right _ _)
  by_cases hz : s.vectors.length = 0
  · have hv : s.vectors = [] := List.length_eq_zero.mp hz
    have hr : retrieve_chunks E s q k = [] := hempty hv
    refine ⟨by simp [hr], by simp [hr], by simp [hr], by simp [hr], hempty,
      ⟨[], List.nil_sublist _, by simp [hr], List.Pairwise.nil⟩, hclamp⟩
  · have hr : retrieve_chunks E s q k
        = retrieveGo s k (searchIndex s.vectors (E q)
            (min (k * 2) s.vectors.length)) [] [] := by
      simp [retrieve_chunks, hz]
    obtain ⟨slots, h1, h2, h3, h4, h5⟩ :=
      retrieveGo_spec s k (searchIndex s.vectors (E q) (min (k * 2) s.vectors.length)) [] []
    rw [List.nil_append] at h2
    have hres : retrieve_chunks E s q k
        = slots.map (fun i => (slotChunkId s i, slotChunk s i)) := hr.trans h2
    have hfst : (retrieve_chunks E s q k).map Prod.fst = slots.map (slotChunkId s) := by
      rw [hres, List.map_map]
      rfl
    refine ⟨?_, ?_, ?_, ?_, hempty, ⟨slots, h1, hres,
      (searchIndex_sorted s.vectors (E q) _).sublist h1⟩, hclamp⟩
    · cases k with
      | zero =>
        have hlen0 : (searchIndex s.vectors (E q) (min (0 * 2) s.vectors.length)).length
            = 0 := by
          rw [hclamp]
          simp
        have : searchIndex s.vectors (E q) (min (0 * 2) s.vectors.length) = [] :=
          List.length_eq_zero.mp hlen0
        rw [this] at h1
        have : slots = [] := List.sublist_nil.mp h1
        simp [hres, this]
      | succ k' =>
        have := h5 (by simp)
        rw [hres, List.length_map]
        simpa using this
    · rw [hfst]
      exact h4
    · intro p hp
      rw [hres] at hp
      obtain ⟨i, hi, rfl⟩ := List.mem_map.mp hp
      obtain ⟨cid, c, hm, he, hs', hc⟩ := h3 i hi
      simp [slotChunkId, slotChunk, hm, hc]
    · intro p hp
      rw [hres] at hp
      obtain ⟨i, hi, rfl⟩ := List.mem_map.mp hp
      obtain ⟨cid, c, hm, he, hs', hc⟩ := h3 i hi
      exact ⟨i, by simp [slotChunkId, hm]⟩

/-- Witness for C1 at a concrete state. -/
theorem retrieve_chunks_ok_witness :
    (retrieve_chunks wE wState3 "coffee" 2).length ≤ 2 :=
  (retrieve_chunks_ok wE wState3 "coffee" 2).1

/-! ## Conflict scan (claim C7) -/

theorem dotQ_cons (x y : ℚ) (xs ys : Vec) :
    dotQ (x :: xs) (y :: ys) = x * y + dotQ xs ys := by
  simp [dotQ]

theorem dotQ_comm (a b : Vec) : dotQ a b = dotQ b a := by
  induction a generalizing b with
  | nil => cases b <;> simp [dotQ]
  | cons x xs ih =>
    cases b with
    | nil => simp [dotQ]
    | cons y ys => rw [dotQ_cons, dotQ_cons, mul_comm, ih]

theorem compute_similarity_comm (E : String → Vec) (sq : ℚ → ℚ) (t1 t2 : String) :
    compute_similarity E sq t1 t2 = compute_similarity E sq t2 t1 := by
  simp only [compute_similarity]
  rw [dotQ_comm (E t1) (E t2)]
  by_cases h1 : sq (dotQ (E t1) (E t1)) = 0 <;>
    by_cases h2 : sq (dotQ (E t2) (E t2)) = 0 <;>
    simp [h1, h2, mul_comm]

/-- The invariant carried through the conflict scan: reported pair keys are
distinct, all recorded in the processed set, and no self-pairs. -/
def ScanInv (cs : List Conflict) (ps : List (String × String)) : Prop :=
  (cs.map (fun c => pairKey c.chunk1_id c.chunk2_id)).Nodup
  ∧ (∀ c ∈ cs, pairKey c.chunk1_id c.chunk2_id ∈ ps)
  ∧ (∀ c ∈ cs, ¬ c.chunk1_id = c.chunk2_id)

theorem scanInner_inv (E : String → Vec) (sq : ℚ → ℚ) (thr : ℚ) (cid : String)
    (cdata : Chunk) :
    ∀ (sims : List (String × Chunk)) (cs : List Conflict)
      (ps : List (String × String)), ScanInv cs ps →
      ScanInv (scanInner E sq thr cid cdata sims cs ps).1
        (scanInner E sq thr cid cdata sims cs ps).2 := by
  intro sims
  induction sims with
  | nil => intro cs ps h; exact h
  | cons sim rest ih =>
    intro cs ps h
    obtain ⟨sid, sc⟩ := sim
    by_cases hself : sid = cid
    · simpa [scanInner, hself] using ih cs ps h
    · by_cases hkey : pairKey cid sid ∈ ps
      · simpa [scanInner, hself, hkey] using ih cs ps h
      · by_cases hthr : thr < compute_similarity E sq cdata.content sc.content
        · have hnew : ScanInv
              (cs ++ [⟨cid, cdata.content, cdata.category, sid, sc.content,
                sc.category, round3 (compute_similarity E sq cdata.content sc.content)⟩])
              (ps ++ [pairKey cid sid]) := by
            obtain ⟨hnd, hmem, hids⟩ := h
            refine ⟨?_, ?_, ?_⟩
            · rw [List.map_append]
              simp only [List.map_cons, List.map_nil]
              rw [List.nodup_append]
              refine ⟨hnd, List.nodup_singleton _, ?_⟩
              intro a ha hb
              rw [List.mem_singleton] at hb
              subst hb
              obtain ⟨cconf, hc, hkeq⟩ := List.mem_map.mp ha
              exact hkey (hkeq ▸ hmem cconf hc)
            · intro c hc
              rcases List.mem_append.mp hc with hin | hin
              · exact List.mem_append_left _ (hmem c hin)
              · rw [List.mem_singleton] at hin
                subst hin
                exact List.mem_append_right _ (List.mem_singleton_self _)
            · intro c hc
              rcases List.mem_append.mp hc with hin | hin
              · exact hids c hin
              · rw [List.mem_singleton] at hin
                subst hin
                exact fun hceq => hself (hceq.symm)
          simpa [scanInner, hself, hkey, hthr] using ih _ _ hnew
        · simpa [scanInner, hself, hkey, hthr] using ih cs ps h

theorem scanOuter_inv (E : String → Vec) (sq : ℚ → ℚ) (s : MM) (thr : ℚ) :
    ∀ (chunks : List (String × Chunk)) (cs : List Conflict)
      (ps : List (String × String)), ScanInv cs ps →
      ScanInv (scanOuter E sq s thr chunks cs ps).1
        (scanOuter E sq s thr chunks cs ps).2 := by
  intro chunks
  induction chunks with
  | nil => intro cs ps h; exact h
  | cons ck rest ih =>
    intro cs ps h
    obtain ⟨cid, cdata⟩ := ck
    have h1 := scanInner_inv E sq thr cid cdata
      (retrieve_chunks E s cdata.content 6) cs ps h
    simpa [scanOuter] using ih _ _ h1

/-- Claim C7:  The conflict scan reports each unordered chunk pair at most once
(the canonical pair keys of the reported conflicts are pairwise distinct and
never self-pairs), the pairwise similarity function is symmetric in its two
arguments, and the scan returns the empty result whenever similarity checking
is disabled by configuration. -/
theorem scan_conflicts_ok (E : String → Vec) (sq : ℚ → ℚ) (cfg : Config) (s : MM) :
    ((scan_all_chunks_for_conflicts E sq cfg s).map
        (fun c => pairKey c.chunk1_id c.chunk2_id)).Nodup
  ∧ (∀ c ∈ scan_all_chunks_for_conflicts E sq cfg s, ¬ c.chunk1_id = c.chunk2_id)
  ∧ (∀ t1 t2, compute_similarity E sq t1 t2 = compute_similarity E sq t2 t1)
  ∧ (cfg.enable_similarity_check = false →
      scan_all_chunks_for_conflicts E sq cfg s = []) := by
  have hbase : ScanInv [] [] := ⟨List.nodup_nil, by simp, by simp⟩
  by_cases hen : cfg.enable_similarity_check = false
  · refine ⟨?_, ?_, fun t1 t2 => compute_similarity_comm E sq t1 t2, fun _ => ?_⟩ <;>
      simp [scan_all_chunks_for_conflicts, hen]
  · have h := scanOuter_inv E sq s cfg.similarity_threshold s.ltm_chunks [] [] hbase
    refine ⟨?_, ?_, fun t1 t2 => compute_similarity_comm E sq t1 t2, fun hc => ?_⟩
    · simpa [scan_all_chunks_for_conflicts, hen] using h.1
    · intro c hc
      refine h.2.2 c ?_
      simpa [scan_all_chunks_for_conflicts, hen] using hc
    · exact absurd hc hen

/-- Witness for C7: with similarity checking disabled the scan is empty. -/
theorem scan_conflicts_ok_witness :
    scan_all_chunks_for_conflicts wE id ⟨false, 85 / 100, 5, "p"⟩ wState3 = [] :=
  (scan_conflicts_ok wE id ⟨false, 85 / 100, 5, "p"⟩ wState3).2.2.2 rfl

/-! ## Edit-script parser (claim C5) -/

/-- Claim C5 counterexample:  A well-formed block of the section-6 grammar
(`ADD category="<label>" … END-ADD`) yields no operation at all: the parser
does not accept that grammar (its actual delimiters are bracketed tags). -/
theorem parse_grammar_counterexample :
    parse_chunk_operations "ADD category=\"notes\"\nhello world\nEND-ADD" = []
  ∧ ¬ (parse_chunk_operations "ADD category=\"notes\"\nhello world\nEND-ADD"
        = [ChunkOp.add "notes" "hello world"]) := by
  constructor <;> decide

theorem parse_ops_wellformed (raw : String) (op : ChunkOp)
    (h : op ∈ parse_chunk_operations raw) :
    (∀ cat content, op = ChunkOp.add cat content → ¬ content = "")
  ∧ (∀ cid content catp, op = ChunkOp.update cid content catp →
       ¬ content = "" ∧ ¬ cid = "" ∧ catp = none)
  ∧ (∀ cid, op = ChunkOp.delete cid → ¬ cid = "") := by
  simp only [parse_chunk_operations, List.mem_append] at h
  rcases h with (h | h) | h
  · obtain ⟨p, _, hf⟩ := List.mem_filterMap.mp h
    split at hf
    · exact absurd hf (by simp)
    · rename_i hcne
      have hop := Option.some.inj hf
      subst hop
      refine ⟨fun cat content heq => ?_, fun cid content catp heq => ?_,
        fun cid heq => ?_⟩
      · cases heq
        exact hcne
      · cases heq
      · cases heq
  · obtain ⟨p, _, hf⟩ := List.mem_filterMap.mp h
    split at hf
    · exact absurd hf (by simp)
    · split at hf
      · exact absurd hf (by simp)
      · rename_i hcne hidne
        have hop := Option.some.inj hf
        subst hop
        refine ⟨fun cat content heq => ?_, fun cid content catp heq => ?_,
          fun cid heq => ?_⟩
        · cases heq
        · cases heq
          exact ⟨hcne, hidne, rfl⟩
        · cases heq
  · obtain ⟨c, _, hf⟩ := List.mem_filterMap.mp h
    split at hf
    · exact absurd hf (by simp)
    · rename_i hidne
      have hop := Option.some.inj hf
      subst hop
      refine ⟨fun cat content heq => ?_, fun cid content catp heq => ?_,
        fun cid heq => ?_⟩
      · cases heq
      · cases heq
      · cases heq
        exact hidne

/-- Claim C5 amended:  The parser accepts the bracketed tagged blocks
`[ADD category="<label>"]…[/ADD]`, `[UPDATE chunk_id="<id>"]…[/UPDATE]` and
`[DELETE chunk_id="<id>"]` (case-insensitively), yielding one operation per
well-formed block with nonempty stripped content and id, ignoring extraneous
text outside recognized blocks, stripping a leading internal-reasoning
(`</think>`) section before parsing, and grouping operations by type (all
ADDs, then all UPDATEs, then all DELETEs) rather than document order. -/
theorem parse_bracketed_ok :
    (∀ raw : String, ∀ op ∈ parse_chunk_operations raw,
      (∀ cat content, op = ChunkOp.add cat content → ¬ content = "")
      ∧ (∀ cid content catp, op = ChunkOp.update cid content catp →
           ¬ content = "" ∧ ¬ cid = "" ∧ catp = none)
      ∧ (∀ cid, op = ChunkOp.delete cid → ¬ cid = ""))
  ∧ parse_chunk_operations
      "<think>plan</think>noise [ADD category=\"notes\"]\nalpha\n[/ADD] mid [update chunk_id=\"c9\"]beta[/UPDATE] tail [DELETE chunk_id=\"c1\"] end"
      = [ChunkOp.add "notes" "alpha", ChunkOp.update "c9" "beta" none,
         ChunkOp.delete "c1"]
  ∧ parse_chunk_operations "[DELETE chunk_id=\"d1\"] [ADD category=\"c\"]x[/ADD]"
      = [ChunkOp.add "c" "x", ChunkOp.delete "d1"] := by
  refine ⟨fun raw op h => parse_ops_wellformed raw op h, by decide, by decide⟩

/-- Witness for C5 (amended): the well-formedness part applied to a concrete
parsed operation. -/
theorem parse_bracketed_ok_witness :
    ¬ ("c1" : String) = "" :=
  ((parse_bracketed_ok.1 "[DELETE chunk_id=\"c1\"]" (ChunkOp.delete "c1")
    (by decide)).2.2 "c1" rfl)

/-! ## Consolidation commit (claims C2 and C4) -/

/-- The chunk pipeline never touches the turn buffer, the turn counter, the
consolidation counter or the archive. -/
def BufEq (s t : MM) : Prop :=
  t.stm = s.stm ∧ t.turn_count = s.turn_count
  ∧ t.consolidation_count = s.consolidation_count
  ∧ t.archive_metadata = s.archive_metadata

theorem bufEq_refl (s : MM) : BufEq s s := ⟨rfl, rfl, rfl, rfl⟩

theorem bufEq_trans {s t u : MM} (h1 : BufEq s t) (h2 : BufEq t u) : BufEq s u :=
  ⟨h2.1.trans h1.1, h2.2.1.trans h1.2.1, h2.2.2.1.trans h1.2.2.1,
   h2.2.2.2.trans h1.2.2.2⟩

theorem bufEq_add (E : String → Vec) (s : MM) (content category : String)
    (now : Nat) : BufEq s (add_chunk E s content category now).1 :=
  ⟨rfl, rfl, rfl, rfl⟩

theorem bufEq_update (E : String → Vec) (s : MM) (cid content : String)
    (category : Option String) (now : Nat) :
    BufEq s (update_chunk E s cid content category now).1 := by
  unfold update_chunk
  cases alookup s.ltm_chunks cid <;> exact ⟨rfl, rfl, rfl, rfl⟩

theorem bufEq_delete (s : MM) (cid : String) : BufEq s (delete_chunk s cid).1 := by
  unfold delete_chunk
  cases alookup s.ltm_chunks cid <;> exact ⟨rfl, rfl, rfl, rfl⟩

theorem bufEq_save (s : MM) : BufEq s (save_ltm s) := ⟨rfl, rfl, rfl, rfl⟩

theorem bufEq_rebuild (s : MM) (now : Nat) :
    BufEq s (rebuild_legacy_metadata s now) := by
  unfold rebuild_legacy_metadata
  split <;> exact ⟨rfl, rfl, rfl, rfl⟩

theorem bufEq_applyOpsGo (E : String → Vec) (sq : ℚ → ℚ) (cfg : Config) (now : Nat) :
    ∀ (ops : List ChunkOp) (s : MM) (cnt : Counts),
      BufEq s (applyOpsGo E sq cfg now s cnt ops).1 := by
  intro ops
  induction ops with
  | nil => intro s cnt; exact bufEq_refl s
  | cons op rest ih =>
    intro s cnt
    cases op with
    | add category content =>
      by_cases hc : content = ""
      · simpa [applyOpsGo, hc] using ih s cnt
      · simp only [applyOpsGo, hc, if_neg hc, if_false]
        exact bufEq_trans (bufEq_add E s content category now) (ih _ _)
    | update cid content category =>
      simp only [applyOpsGo]
      exact bufEq_trans (bufEq_update E s cid content category now) (ih _ _)
    | delete cid =>
      simp only [applyOpsGo]
      exact bufEq_trans (bufEq_delete s cid) (ih _ _)

theorem bufEq_apply_ops (E : String → Vec) (sq : ℚ → ℚ) (cfg : Config) (s : MM)
    (ops : List ChunkOp) (now : Nat) :
    BufEq s (apply_chunk_operations E sq cfg s ops now).1 := by
  unfold apply_chunk_operations
  dsimp only
  split
  · exact bufEq_trans (bufEq_applyOpsGo E sq cfg now ops s ⟨0, 0, 0, 0⟩) (bufEq_save _)
  · exact bufEq_applyOpsGo E sq cfg now ops s ⟨0, 0, 0, 0⟩

theorem bufEq_chunk_consolidation (E : String → Vec) (sq : ℚ → ℚ) (cfg : Config)
    (s : MM) (raw summary : String) (now : Nat) :
    BufEq s (apply_chunk_consolidation E sq cfg s raw summary now).1 := by
  unfold apply_chunk_consolidation
  dsimp only
  split
  · exact bufEq_trans (bufEq_add E s summary "general" now)
      (bufEq_trans (bufEq_rebuild _ now) (bufEq_save _))
  · exact bufEq_trans (bufEq_apply_ops E sq cfg s _ now)
      (bufEq_trans (bufEq_rebuild _ now) (bufEq_save _))

theorem bufEq_apply_result (E : String → Vec) (sq : ℚ → ℚ) (cfg : Config)
    (s : MM) (raw mode summary : String) (now : Nat) :
    BufEq s (apply_consolidation_result E sq cfg s raw mode summary now).1 := by
  unfold apply_consolidation_result
  split
  · exact bufEq_chunk_consolidation E sq cfg s _ summary now
  · split
    · exact bufEq_refl s
    · exact bufEq_refl s

theorem commitCore_rewrite_eq (E : String → Vec) (sq : ℚ → ℚ) (cfg : Config)
    (s : MM) (delta sum_text : String) (now : Nat)
    (hp : cfg.chunk_consolidation_prompt = "") :
    commitCore E sq cfg s delta sum_text now
      = if 10 < (pyStrip (stripThink delta)).length
        then ({ replace_ltm_with_consolidated E s (stripThink delta) now with
                 stm := [], turn_count := 0 }, true)
        else (s, false) := by
  have happ : apply_consolidation_result E sq cfg s delta "rewrite" sum_text now
      = (s, stripThink delta) := by
    simp [apply_consolidation_result]
  simp only [commitCore]
  rw [if_pos hp, happ]
  rfl

theorem commitCore_chunk_eq (E : String → Vec) (sq : ℚ → ℚ) (cfg : Config)
    (s : MM) (delta sum_text : String) (now : Nat)
    (hp : ¬ cfg.chunk_consolidation_prompt = "") :
    commitCore E sq cfg s delta sum_text now
      = if 10 < (pyStrip
            (apply_chunk_consolidation E sq cfg s (stripThink delta) sum_text now).2).length
        then ({ (apply_chunk_consolidation E sq cfg s (stripThink delta) sum_text now).1
                with stm := [], turn_count := 0 }, true)
        else ((apply_chunk_consolidation E sq cfg s (stripThink delta) sum_text now).1,
              false) := by
  have happ : apply_consolidation_result E sq cfg s delta "chunk" sum_text now
      = apply_chunk_consolidation E sq cfg s (stripThink delta) sum_text now := by
    simp [apply_consolidation_result]
  simp only [commitCore]
  rw [if_neg hp, happ]
  rfl

theorem archiveStep_stm (cfg : Config) (distill : String → String) (t : MM)
    (now : Nat) : (archiveStep cfg distill t now).stm = t.stm := by
  unfold archiveStep
  split
  · show (perform_deep_archive distill t now).stm = t.stm
    unfold perform_deep_archive
    split <;> rfl
  · rfl

theorem archiveStep_turn_count (cfg : Config) (distill : String → String) (t : MM)
    (now : Nat) : (archiveStep cfg distill t now).turn_count = t.turn_count := by
  unfold archiveStep
  split
  · show (perform_deep_archive distill t now).turn_count = t.turn_count
    unfold perform_deep_archive
    split <;> rfl
  · rfl

theorem archiveStep_of_lt (cfg : Config) (distill : String → String) (t : MM)
    (now : Nat) (h : t.consolidation_count < cfg.archive_threshold) :
    archiveStep cfg distill t now = t := by
  unfold archiveStep
  rw [if_neg (not_le.mpr h)]

theorem archiveStep_count_of_ge (cfg : Config) (distill : String → String) (t : MM)
    (now : Nat) (h : cfg.archive_threshold ≤ t.consolidation_count) :
    (archiveStep cfg distill t now).consolidation_count = 0 := by
  unfold archiveStep
  rw [if_pos h]

/-- Claim C2 amended:  When the consolidation commit aborts (the plausibility
check fails), the turn buffer and `turn_count` are left unchanged — so the
same buffered turns are retried at the next attempt — and in rewrite mode the
commit itself mutates nothing: the resulting state is exactly the deep-archive
step applied to the prior state.  The deep-archive check still runs after an
aborted commit: while `consolidation_count` is below `archive_threshold` it is
a no-op, so `consolidation_count` and the archive are also unchanged, but once
the counter has reached the threshold even an aborted cycle archives and
resets the counter to zero.  (In chunk mode the chunk operations of the cycle
have already been applied and durably saved before the check: only the buffer
clear is aborted, not the store mutation — see the counterexample.) -/
theorem consolidation_abort_amended (E : String → Vec) (sq : ℚ → ℚ) (cfg : Config)
    (distill : String → String) (s : MM) (delta sum_text : String) (now : Nat)
    (habort : (consolidationCommit E sq cfg distill s delta sum_text now).2 = false) :
    (consolidationCommit E sq cfg distill s delta sum_text now).1.stm = s.stm
  ∧ (consolidationCommit E sq cfg distill s delta sum_text now).1.turn_count
      = s.turn_count
  ∧ (s.consolidation_count < cfg.archive_threshold →
      (consolidationCommit E sq cfg distill s delta sum_text now).1.consolidation_count
        = s.consolidation_count
      ∧ (consolidationCommit E sq cfg distill s delta sum_text now).1.archive_metadata
        = s.archive_metadata)
  ∧ (cfg.archive_threshold ≤ s.consolidation_count →
      (consolidationCommit E sq cfg distill s delta sum_text now).1.consolidation_count
        = 0)
  ∧ (cfg.chunk_consolidation_prompt = "" →
      (consolidationCommit E sq cfg distill s delta sum_text now).1
        = archiveStep cfg distill s now) := by
  have hcore : (commitCore E sq cfg s delta sum_text now).2 = false := habort
  have hstate : (consolidationCommit E sq cfg distill s delta sum_text now).1
      = archiveStep cfg distill (commitCore E sq cfg s delta sum_text now).1 now := rfl
  by_cases hp : cfg.chunk_consolidation_prompt = ""
  · -- rewrite mode: the aborted commit is the identity on the state
    rw [commitCore_rewrite_eq E sq cfg s delta sum_text now hp] at hcore
    by_cases hlen : 10 < (pyStrip (stripThink delta)).length
    · rw [if_pos hlen] at hcore
      exact absurd hcore (by simp)
    · have hc1 : (commitCore E sq cfg s delta sum_text now).1 = s := by
        rw [commitCore_rewrite_eq E sq cfg s delta sum_text now hp, if_neg hlen]
      rw [hc1] at hstate
      refine ⟨?_, ?_, ?_, ?_, fun _ => hstate⟩
      · rw [hstate, archiveStep_stm]
      · rw [hstate, archiveStep_turn_count]
      · intro h
        rw [hstate, archiveStep_of_lt cfg distill s now h]
        exact ⟨rfl, rfl⟩
      · intro h
        rw [hstate]
        exact archiveStep_count_of_ge cfg distill s now h
  · -- chunk mode: the buffer fields survive the already-applied chunk edits
    rw [commitCore_chunk_eq E sq cfg s delta sum_text now hp] at hcore
    by_cases hlen : 10 <
        (pyStrip (apply_chunk_consolidation E sq cfg s (stripThink delta) sum_text now).2).length
    · rw [if_pos hlen] at hcore
      exact absurd hcore (by simp)
    · have hc1 : (commitCore E sq cfg s delta sum_text now).1
          = (apply_chunk_consolidation E sq cfg s (stripThink delta) sum_text now).1 := by
        rw [commitCore_chunk_eq E sq cfg s delta sum_text now hp, if_neg hlen]
      have hbuf : BufEq s (commitCore E sq cfg s delta sum_text now).1 := by
        rw [hc1]
        exact bufEq_chunk_consolidation E sq cfg s (stripThink delta) sum_text now
      refine ⟨?_, ?_, ?_, ?_, fun hc => absurd hc hp⟩
      · rw [hstate, archiveStep_stm]
        exact hbuf.1
      · rw [hstate, archiveStep_turn_count]
        exact hbuf.2.1
      · intro h
        rw [hstate, archiveStep_of_lt cfg distill _ now (by rw [hbuf.2.2.1]; exact h)]
        exact ⟨hbuf.2.2.1, hbuf.2.2.2⟩
      · intro h
        rw [hstate]
        exact archiveStep_count_of_ge cfg distill _ now (by rw [hbuf.2.2.1]; exact h)

/-- A chunk-mode configuration (nonempty chunk-consolidation prompt,
similarity checking off so witnesses stay small). -/
def cfgChunk : Config := ⟨false, 85 / 100, 5, "p"⟩

/-- A rewrite-mode configuration (no chunk-consolidation prompt). -/
def cfgRewrite : Config := ⟨false, 85 / 100, 5, ""⟩

/-- A concrete state with one chunk, one live slot and three buffered turns. -/
def wStateC2 : MM :=
  { emptyMM with
      ltm_chunks := [("c1", ⟨"User likes tea", "general", 0, 0⟩)]
      chunk_index_map := [(0, "c1")]
      vectors := [[1]]
      next_vector_id := 1
      nonce := 1
      stm := [⟨"hi", "yo", "m", 0⟩]
      turn_count := 3 }

/-- Claim C2 counterexample:  A chunk-mode cycle whose edit script deletes the
only chunk and whose aggregate text ends up below the plausibility minimum:
the commit aborts (flag false, turn buffer and `turn_count` preserved), but
the deletion and the durable write have already taken effect — the store's
prior state is *not* preserved. -/
theorem consolidation_abort_counterexample :
    (consolidationCommit wE id cfgChunk (fun t => t) wStateC2
        "[DELETE chunk_id=\"c1\"]" "x" 7).2 = false
  ∧ (consolidationCommit wE id cfgChunk (fun t => t) wStateC2
        "[DELETE chunk_id=\"c1\"]" "x" 7).1.stm = wStateC2.stm
  ∧ (consolidationCommit wE id cfgChunk (fun t => t) wStateC2
        "[DELETE chunk_id=\"c1\"]" "x" 7).1.turn_count = wStateC2.turn_count
  ∧ ¬ ((consolidationCommit wE id cfgChunk (fun t => t) wStateC2
        "[DELETE chunk_id=\"c1\"]" "x" 7).1.ltm_chunks = wStateC2.ltm_chunks)
  ∧ ¬ ((consolidationCommit wE id cfgChunk (fun t => t) wStateC2
        "[DELETE chunk_id=\"c1\"]" "x" 7).1.disk = wStateC2.disk) := by
  constructor
  · decide
  constructor
  · decide
  constructor
  · decide
  constructor
  · decide
  · decide

/-- Witness for C2 (amended) at a concrete rewrite-mode abort. -/
theorem consolidation_abort_amended_witness :
    (consolidationCommit wE id cfgRewrite (fun t => t) wStateC2 "x" "x" 7).1.stm
      = wStateC2.stm :=
  (consolidation_abort_amended wE id cfgRewrite (fun t => t) wStateC2 "x" "x" 7
    (by decide)).1

/-- Claim C4 counterexample:  A successful chunk-mode commit leaves
`consolidation_count` unchanged: the increment lives in
`replace_ltm_with_consolidated`, which chunk-mode commits skip, so the claim
"every successful commit increments `consolidation_count` by one" fails. -/
theorem consolidation_count_counterexample :
    (consolidationCommit wE id cfgChunk (fun t => t) wStateC2
        "[ADD category=\"facts\"]User enjoys long hikes in autumn[/ADD]" "sum" 9).2
      = true
  ∧ (consolidationCommit wE id cfgChunk (fun t => t) wStateC2
        "[ADD category=\"facts\"]User enjoys long hikes in autumn[/ADD]" "sum" 9).1.consolidation_count
      = wStateC2.consolidation_count
  ∧ ¬ ((consolidationCommit wE id cfgChunk (fun t => t) wStateC2
        "[ADD category=\"facts\"]User enjoys long hikes in autumn[/ADD]" "sum" 9).1.consolidation_count
      = wStateC2.consolidation_count + 1) := by
  constructor
  · decide
  constructor
  · decide
  · decide

/-- Claim C4 amended:  A successful rewrite-mode commit increments
`consolidation_count` by one, while a successful chunk-mode commit leaves it
unchanged (chunk-mode cycles never advance the archive counter).  After the
commit, whenever `consolidation_count` has reached `archive_threshold`, the
deep-archive step appends a distilled entry to the archive ring buffer
(evicting the oldest entry once the length exceeds 10, and doing nothing when
the legacy metadata is empty) and resets `consolidation_count` to zero; the
ring buffer never grows beyond 10 entries. -/
theorem consolidation_count_amended (E : String → Vec) (sq : ℚ → ℚ) (cfg : Config)
    (distill : String → String) (s : MM) (delta sum_text : String) (now : Nat)
    (hsucc : (commitCore E sq cfg s delta sum_text now).2 = true) :
    (cfg.chunk_consolidation_prompt = "" →
       (commitCore E sq cfg s delta sum_text now).1.consolidation_count
         = s.consolidation_count + 1)
  ∧ (¬ cfg.chunk_consolidation_prompt = "" →
       (commitCore E sq cfg s delta sum_text now).1.consolidation_count
         = s.consolidation_count)
  ∧ (∀ t : MM, ∀ e : MetaEntry, ∀ restMeta : List MetaEntry,
       cfg.archive_threshold ≤ t.consolidation_count →
       t.ltm_metadata = e :: restMeta →
       (archiveStep cfg distill t now).consolidation_count = 0
       ∧ (archiveStep cfg distill t now).archive_metadata
           = (if 10 < (t.archive_metadata
                  ++ [ArchiveEntry.mk (stripThink (distill e.content)) now]).length
              then (t.archive_metadata
                  ++ [ArchiveEntry.mk (stripThink (distill e.content)) now]).drop 1
              else t.archive_metadata
                  ++ [ArchiveEntry.mk (stripThink (distill e.content)) now]))
  ∧ (∀ t : MM, t.archive_metadata.length ≤ 10 →
       (archiveStep cfg distill t now).archive_metadata.length ≤ 10) := by
  refine ⟨?_, ?_, ?_, ?_⟩
  · intro hp
    rw [commitCore_rewrite_eq E sq cfg s delta sum_text now hp] at hsucc ⊢
    by_cases hlen : 10 < (pyStrip (stripThink delta)).length
    · rw [if_pos hlen]
      simp [replace_ltm_with_consolidated, create_new_index, save_ltm]
    · rw [if_neg hlen] at hsucc
      exact absurd hsucc (by simp)
  · intro hp
    rw [commitCore_chunk_eq E sq cfg s delta sum_text now hp] at hsucc ⊢
    by_cases hlen : 10 <
        (pyStrip (apply_chunk_consolidation E sq cfg s (stripThink delta) sum_text now).2).length
    · rw [if_pos hlen]
      have hbuf := bufEq_chunk_consolidation E sq cfg s (stripThink delta) sum_text now
      simpa using hbuf.2.2.1
    · rw [if_neg hlen] at hsucc
      exact absurd hsucc (by simp)
  · intro t e restMeta hth hmeta
    constructor
    · simp [archiveStep, hth]
    · simp only [archiveStep, if_pos hth, perform_deep_archive, hmeta]
  · intro t hlen
    by_cases hth : cfg.archive_threshold ≤ t.consolidation_count
    · simp only [archiveStep, if_pos hth, perform_deep_archive]
      cases hmeta : t.ltm_metadata with
      | nil => simpa using hlen
      | cons e restMeta =>
        simp only
        split
        · rename_i hgt
          simp only [List.length_drop, List.length_append, List.length_singleton]
          omega
        · rename_i hng
          simp only [List.length_append, List.length_singleton] at hng ⊢
          omega
    · simpa [archiveStep, hth] using hlen

/-- Witness for C4 (amended) at a concrete rewrite-mode success. -/
theorem consolidation_count_amended_witness :
    (commitCore wE id cfgRewrite emptyMM "This is a long knowledge base output"
        "s" 3).1.consolidation_count = emptyMM.consolidation_count + 1 :=
  (consolidation_count_amended wE id cfgRewrite (fun t => t) emptyMM
    "This is a long knowledge base output" "s" 3 (by decide)).1 rfl

/-! ## Restoration from archive (claim C6) -/

/-- A concrete state with one chunk and one archive entry. -/
def wState6 : MM := { wState3 with archive_metadata := [⟨"essence", 0⟩] }

/-- Claim C6 counterexample:  Restoring an in-range archive entry leaves the
chunk table *empty*: the distilled text is stored as the single legacy
metadata entry, not as a chunk in the chunk table, so the store does not
contain it "as a single chunk". -/
theorem restore_counterexample :
    (restore_from_archive wE wState6 0 5).2 = true
  ∧ (restore_from_archive wE wState6 0 5).1.ltm_chunks = []
  ∧ ¬ ((restore_from_archive wE wState6 0 5).1.ltm_chunks.length = 1) := by
  constructor
  · decide
  constructor
  · decide
  · decide

/-- Claim C6 amended:  For every in-range archive index,
`restore_from_archive(index)` returns `True`, discards all existing chunks
and chunk↔slot mappings, fully resets the vector index's physical slot state
(leaving only the entry's embedding as the single vector, with
`next_vector_id` reset to 0), stores the chosen entry's distilled text as the
single legacy metadata entry — the chunk table itself is left empty — saves,
and increments the consolidation counter. -/
theorem restore_from_archive_amended (E : String → Vec) (s : MM) (idx : Nat)
    (entry : ArchiveEntry) (now : Nat)
    (h : s.archive_metadata.get? idx = some entry) :
    restore_from_archive E s idx now
      = ({ s with
            ltm_chunks := []
            chunk_index_map := []
            vectors := [E entry.content]
            next_vector_id := 0
            ltm_metadata := [⟨entry.content, now⟩]
            consolidation_count := s.consolidation_count + 1
            disk := some ⟨[E entry.content], [⟨entry.content, now⟩], [], []⟩ }, true) := by
  simp only [restore_from_archive, h]
  rfl

/-- Witness for C6 (amended) at the concrete state `wState6`. -/
theorem restore_from_archive_amended_witness :
    (restore_from_archive wE wState6 0 5).2 = true := by
  rw [restore_from_archive_amended wE wState6 0 ⟨"essence", 0⟩ 5 (by decide)]

end Memochat











